import Mathlib

/-!
# QR-Code generator: the field collection and the payload encoder of `src/App.js`

A shallow embedding of the component `App` of `src/App.js`:

* the two pieces of React state, `fields` (an array of `{ label, value }` objects) and
  `qrCodeUrl` (a string);
* the handlers `addField`, `removeField`, `updateField`, `generateQRCode`, `clearAll`;
* the parts of the JavaScript language the handlers rely on: `String.prototype.trim`,
  truthiness and `&&`, `Array.prototype.filter`, property assignment on an ordinary object
  created by `{}`, the order of `[[OwnPropertyKeys]]`, and `JSON.stringify(data, null, 2)`.

JavaScript strings are modelled by Lean strings (sequences of Unicode scalar values), so a
string holding an unpaired surrogate code unit is outside the model.  Field objects live in a
heap and the array `fields` holds references to them, because `updateField` writes through
such a reference.
-/

namespace QRCodeGenerator

/-! ## Strings: `trim`, truthiness, `&&` -/

/-- Code points of the ECMAScript productions `WhiteSpace` and `LineTerminator`, the ones
`String.prototype.trim` strips: TAB, LF, VT, FF, CR, SP, NBSP, U+1680, U+2000..U+200A,
U+2028, U+2029, U+202F, U+205F, U+3000 and U+FEFF. -/
def isTrimChar (c : Char) : Bool :=
  let n := c.toNat
  n == 0x09 || n == 0x0A || n == 0x0B || n == 0x0C || n == 0x0D || n == 0x20 ||
  n == 0xA0 || n == 0x1680 || (0x2000 ≤ n && n ≤ 0x200A) ||
  n == 0x2028 || n == 0x2029 || n == 0x202F || n == 0x205F || n == 0x3000 || n == 0xFEFF

/-- `String.prototype.trim` on the list of characters: strip from the start, then from the
end. -/
def trimChars (cs : List Char) : List Char :=
  ((cs.dropWhile isTrimChar).reverse.dropWhile isTrimChar).reverse

/-- `s.trim()`. -/
def trim (s : String) : String :=
  ⟨trimChars s.data⟩

/-- `ToBoolean` on a string: every string but the empty one is truthy. -/
def truthy (s : String) : Bool :=
  !(s.data.isEmpty)

/-- `a && b` on strings: the left operand when it is falsy, else the right operand. -/
def jsAnd (a b : String) : String :=
  if truthy a then b else a

/-! ## The state of the component -/

/-- A field object `{ label: ..., value: ... }`. -/
structure Field where
  label : String
  value : String
deriving DecidableEq, Repr

/-- The property names `updateField` is called with: `'label'` and `'value'`. -/
inductive Key where
  | label
  | value
deriving DecidableEq, Repr

/-- Reading `obj[key]`. -/
def Field.getKey (f : Field) : Key → String
  | Key.label => f.label
  | Key.value => f.value

/-- Writing `obj[key] = v`. -/
def Field.setKey (f : Field) (k : Key) (v : String) : Field :=
  match k with
  | Key.label => { f with label := v }
  | Key.value => { f with value := v }

/-- The state: the heap of field objects, a reference to an object being a natural number
(`next` is the first unused one), the array held by `fields`, and `qrCodeUrl`. -/
structure AppState where
  heap : Nat → Field
  next : Nat
  fields : List Nat
  qrCodeUrl : String

/-- The fields an array of references denotes in a heap. -/
def readFields (heap : Nat → Field) (arr : List Nat) : List Field :=
  arr.map heap

/-- The field sequence of a state, read through its heap. -/
def AppState.snapshot (s : AppState) : List Field :=
  readFields s.heap s.fields

/-- The state after the two `useState` calls of lines 6-10. -/
def initialState : AppState :=
  { heap := Function.update (Function.update (fun _ => ⟨"", ""⟩) 0 ⟨"MAC Address", ""⟩) 1
      ⟨"Serial Number", ""⟩
    next := 2
    fields := [0, 1]
    qrCodeUrl := "" }

/-- What a handler can throw. -/
inductive JSError where
  | typeError (msg : String)
deriving DecidableEq, Repr

/-! ## The handlers on the field collection -/

/-- `addField` (lines 12-14): `setFields([...fields, { label: '', value: '' }])`. -/
def addField (s : AppState) : Except JSError AppState :=
  let obj := s.next
  Except.ok { s with
    heap := Function.update s.heap obj ⟨"", ""⟩
    next := s.next + 1
    fields := s.fields ++ [obj] }

/-- `arr.filter((x, i) => p(x, i))`, the callback being given the element and its index; `i`
is the index of the head of the list. -/
def filterWithIndexFrom {α : Type} (p : α → Nat → Bool) : Nat → List α → List α
  | _, [] => []
  | i, x :: xs =>
    if p x i then x :: filterWithIndexFrom p (i + 1) xs else filterWithIndexFrom p (i + 1) xs

/-- `removeField` (lines 16-19): `fields.filter((_, i) => i !== index)`. -/
def removeField (s : AppState) (index : Int) : Except JSError AppState :=
  let newFields := filterWithIndexFrom (fun _ i => decide ((i : Int) ≠ index)) 0 s.fields
  Except.ok { s with fields := newFields }

/-- The element `arr[index]`, `none` standing for `undefined`. -/
def arrayGet {α : Type} (arr : List α) (index : Int) : Option α :=
  if 0 ≤ index then arr[index.toNat]? else none

/-- `updateField` (lines 21-25): the array is copied, the field object is not; writing to
`newFields[index][key]` throws a `TypeError` when `newFields[index]` is `undefined`. -/
def updateField (s : AppState) (index : Int) (key : Key) (value : String) :
    Except JSError AppState :=
  let newFields := s.fields
  match arrayGet newFields index with
  | none => Except.error (JSError.typeError "Cannot set properties of undefined")
  | some obj =>
    Except.ok { s with
      heap := Function.update s.heap obj ((s.heap obj).setKey key value)
      fields := newFields }

/-- `clearAll` (lines 70-76): two new field objects, and the empty string for `qrCodeUrl`. -/
def clearAll (s : AppState) : Except JSError AppState :=
  let a := s.next
  let b := s.next + 1
  Except.ok
    { heap := Function.update (Function.update s.heap a ⟨"MAC Address", ""⟩) b
        ⟨"Serial Number", ""⟩
      next := s.next + 2
      fields := [a, b]
      qrCodeUrl := "" }

/-! ## The payload object: `data = {}` and `data[field.label] = field.value` -/

/-- An ordinary object created by `{}` on which only string-valued properties are assigned: its
own properties, all of them enumerable data properties, in the order of their creation. -/
abbrev JSObject := List (String × String)

/-- `HasOwnProperty(o, k)`. -/
def hasOwnProperty (o : JSObject) (k : String) : Bool :=
  o.any (fun p => p.1 == k)

/-- Storing `v` in the existing own property `k`; the property keeps its place. -/
def replaceValue (k v : String) : JSObject → JSObject
  | [] => []
  | p :: rest => if p.1 = k then (p.1, v) :: rest else p :: replaceValue k v rest

/-- The assignment `o[k] = v` of a string `v` to an object whose prototype is
`Object.prototype` (`OrdinarySet`): an own property is overwritten; otherwise the prototype is
asked, whose only accessor property is `__proto__`, and its setter ignores a value that is
neither an object nor `null`; every other inherited property is a writable data property, and
then, as when nothing is inherited, a new own property is created after the existing ones. -/
def setProperty (o : JSObject) (k v : String) : JSObject :=
  if hasOwnProperty o k then replaceValue k v o
  else if k = "__proto__" then o
  else o ++ [(k, v)]

/-- Is the character a decimal digit? -/
def isDigit (c : Char) : Bool :=
  48 ≤ c.toNat && c.toNat ≤ 57

/-- The number a list of decimal digits denotes. -/
def digitsValue (cs : List Char) : Nat :=
  cs.foldl (fun acc c => 10 * acc + (c.toNat - 48)) 0

/-- Is the property key an array index: a canonical numeric string (decimal digits, no
leading zero unless it is `0` itself) whose value `i` satisfies `0 ≤ i < 2^32 - 1`? -/
def isArrayIndex (k : String) : Bool :=
  let cs := k.data
  !cs.isEmpty && cs.all isDigit && (cs.head? != some (Char.ofNat 48) || cs.length == 1) &&
    decide (digitsValue cs < 2 ^ 32 - 1)

/-- The numeric value of a key that is an array index. -/
def indexValue (k : String) : Nat :=
  digitsValue k.data

/-- Ascending numeric order on array-index keys. -/
def indexLE (a b : String) : Prop :=
  indexValue a ≤ indexValue b

instance : DecidableRel indexLE :=
  fun a b => inferInstanceAs (Decidable (indexValue a ≤ indexValue b))

/-- `OrdinaryOwnPropertyKeys`: the array-index keys in ascending numeric order, then the
other string keys in the order their properties were created. -/
def ownPropertyKeys (o : JSObject) : List String :=
  let keys := o.map Prod.fst
  (keys.filter isArrayIndex).insertionSort indexLE ++ keys.filter (fun k => !isArrayIndex k)

/-- `Get(o, k)` for an own key; `none` stands for `undefined`. -/
def getProperty (o : JSObject) (k : String) : Option String :=
  (o.find? (fun p => p.1 == k)).map Prod.snd

/-! ## `JSON.stringify(data, null, 2)` -/

/-- Lowercase hexadecimal digit. -/
def hexDigit (n : Nat) : Char :=
  if n < 10 then Char.ofNat (48 + n) else Char.ofNat (87 + n)

/-- The escape `QuoteJSONString` emits for one code point: the two-character escapes of
backspace, tab, line feed, form feed, carriage return, the double quote and the backslash; a
`\u00xx` escape for the other code points below U+0020; the code point itself otherwise. -/
def quoteChar (c : Char) : List Char :=
  let n := c.toNat
  let bs := Char.ofNat 92
  if n = 8 then [bs, Char.ofNat 98]
  else if n = 9 then [bs, Char.ofNat 116]
  else if n = 10 then [bs, Char.ofNat 110]
  else if n = 12 then [bs, Char.ofNat 102]
  else if n = 13 then [bs, Char.ofNat 114]
  else if n = 34 then [bs, Char.ofNat 34]
  else if n = 92 then [bs, bs]
  else if n < 32 then
    [bs, Char.ofNat 117, Char.ofNat 48, Char.ofNat 48, hexDigit (n / 16), hexDigit (n % 16)]
  else [c]

/-- `QuoteJSONString(s)`. -/
def quoteJSONString (s : String) : String :=
  ⟨Char.ofNat 34 :: (s.data.flatMap quoteChar ++ [Char.ofNat 34])⟩

/-- The members `SerializeJSONObject` collects: for each own key, in the order of
`ownPropertyKeys`, the quoted key, a colon, a space when `gap` is not empty, and the quoted
value. -/
def jsonMembers (gap : String) (o : JSObject) : List String :=
  (ownPropertyKeys o).filterMap fun P =>
    (getProperty o P).map fun v =>
      quoteJSONString P ++ ":" ++ (if gap = "" then "" else " ") ++ quoteJSONString v

/-- `SerializeJSONObject` at the top level (the indentation before the object is empty) for a
non-empty `gap`. -/
def serializeJSONObject (gap : String) (o : JSObject) : String :=
  let stepback := ""
  let indent := stepback ++ gap
  let members := jsonMembers gap o
  if members.isEmpty then "\x7b\x7d"
  else
    let separator := ",\n" ++ indent
    let properties := separator.intercalate members
    "\x7b" ++ "\n" ++ indent ++ properties ++ "\n" ++ stepback ++ "\x7d"

/-- `JSON.stringify(data, null, 2)`: no replacer, `gap` is two spaces. -/
def jsonStringify2 (data : JSObject) : String :=
  serializeJSONObject "  " data

/-! ## `generateQRCode` -/

/-- The callback of line 28: `f.label.trim() && f.value.trim()`, coerced to a boolean by
`filter`. -/
def isValidField (f : Field) : Bool :=
  truthy (jsAnd (trim f.label) (trim f.value))

/-- The `validFields` of line 28. -/
def validFields (fields : List Field) : List Field :=
  fields.filter isValidField

/-- The `data` of lines 35-38: starting from `{}`, `data[field.label] = field.value` for each
valid field in turn. -/
def buildData (valid : List Field) : JSObject :=
  valid.foldl (fun data field => setProperty data field.label field.value) []

/-- The `color` option. -/
structure QRColor where
  dark : String
  light : String
deriving DecidableEq, Repr

/-- The options object handed to `QRCode.toDataURL`. -/
structure QROptions where
  width : Nat
  margin : Nat
  color : QRColor
deriving DecidableEq, Repr

/-- The options of lines 43-50. -/
def qrOptions : QROptions :=
  { width := 400, margin := 2, color := { dark := "#000000", light := "#FFFFFF" } }

/-- The external `QRCode.toDataURL`: the data URL it resolves with, or the error it rejects
with. -/
abbrev Codec := String → QROptions → Except String String

/-- What one run of `generateQRCode` does: the state it leaves, the `alert`s it shows, the
calls of the codec it makes, and what it writes with `console.error`. -/
structure GenerateResult where
  state : AppState
  alerts : List String
  codecCalls : List (String × QROptions)
  consoleErrors : List (String × String)

/-- The message of the `alert` of line 31. -/
def noValidFieldsMessage : String :=
  "Please add at least one field with both label and value"

/-- `generateQRCode` (lines 27-56). It only reads the field objects, so it works on the
snapshot of the state. -/
def generateQRCode (codec : Codec) (s : AppState) : GenerateResult :=
  let valid := validFields s.snapshot
  if valid.length = 0 then
    { state := s, alerts := [noValidFieldsMessage], codecCalls := [], consoleErrors := [] }
  else
    let data := buildData valid
    let qrData := jsonStringify2 data
    match codec qrData qrOptions with
    | Except.ok url =>
      { state := { s with qrCodeUrl := url }, alerts := [], codecCalls := [(qrData, qrOptions)],
        consoleErrors := [] }
    | Except.error err =>
      { state := s, alerts := ["Error generating QR code"],
        codecCalls := [(qrData, qrOptions)],
        consoleErrors := [("Error generating QR code:", err)] }

/-! ## Auxiliary definitions for the statements -/

/-- The invariant of the states the component reaches: the array `fields` holds pairwise
distinct references, all of them allocated. -/
def AppState.WellFormed (s : AppState) : Prop :=
  s.fields.Nodup ∧ ∀ r ∈ s.fields, r < s.next

/-- The states the component reaches from the initial one through its handlers. -/
inductive Reachable : AppState → Prop where
  | initial : Reachable initialState
  | addField (s s' : AppState) : Reachable s → addField s = Except.ok s' → Reachable s'
  | removeField (s s' : AppState) (index : Int) :
      Reachable s → removeField s index = Except.ok s' → Reachable s'
  | updateField (s s' : AppState) (index : Int) (key : Key) (value : String) :
      Reachable s → updateField s index key value = Except.ok s' → Reachable s'
  | generateQRCode (codec : Codec) (s : AppState) :
      Reachable s → Reachable (generateQRCode codec s).state
  | clearAll (s s' : AppState) : Reachable s → clearAll s = Except.ok s' → Reachable s'

/-- A state holding a given sequence of fields, one object per position. -/
def stateOfFields (F : List Field) (url : String) : AppState :=
  { heap := fun r => F.getD r ⟨"", ""⟩
    next := F.length
    fields := List.range F.length
    qrCodeUrl := url }

/-- The value of a hexadecimal digit. -/
def hexValue (c : Char) : Option Nat :=
  let n := c.toNat
  if 48 ≤ n ∧ n ≤ 57 then some (n - 48)
  else if 97 ≤ n ∧ n ≤ 102 then some (n - 87)
  else if 65 ≤ n ∧ n ≤ 70 then some (n - 55)
  else none

/-- The character that a two-character escape of a JSON string stands for, given the
character after the backslash. -/
def unescapeChar (c : Char) : Option Char :=
  let n := c.toNat
  if n = 98 then some (Char.ofNat 8)
  else if n = 116 then some (Char.ofNat 9)
  else if n = 110 then some (Char.ofNat 10)
  else if n = 102 then some (Char.ofNat 12)
  else if n = 114 then some (Char.ofNat 13)
  else if n = 34 ∨ n = 92 ∨ n = 47 then some c
  else none

/-- Where the reader of a JSON string stands: between characters, behind a backslash, or
inside a `\u` escape with some hexadecimal digits still to come. -/
inductive ReadMode where
  | plain
  | escape
  | hex (remaining acc : Nat)

/-- Reading the characters between the quotes of a JSON string, the way a consumer of the
payload does; used only to state that `quoteJSONString` loses nothing. -/
def readJSONChars : List Char → ReadMode → Option (List Char)
  | [], ReadMode.plain => some []
  | [], ReadMode.escape => none
  | [], ReadMode.hex _ _ => none
  | c :: rest, ReadMode.plain =>
    if c.toNat = 92 then readJSONChars rest ReadMode.escape
    else if c.toNat = 34 ∨ c.toNat < 32 then none
    else (readJSONChars rest ReadMode.plain).map (fun out => c :: out)
  | c :: rest, ReadMode.escape =>
    if c.toNat = 117 then readJSONChars rest (ReadMode.hex 4 0)
    else
      match unescapeChar c with
      | some x => (readJSONChars rest ReadMode.plain).map (fun out => x :: out)
      | none => none
  | c :: rest, ReadMode.hex remaining acc =>
    match hexValue c with
    | none => none
    | some d =>
      if remaining ≤ 1 then
        (readJSONChars rest ReadMode.plain).map (fun out => Char.ofNat (16 * acc + d) :: out)
      else readJSONChars rest (ReadMode.hex (remaining - 1) (16 * acc + d))

/-- The string a JSON string literal stands for: the text between its two double quotes,
read by `readJSONChars`. -/
def unquoteJSONString (s : String) : Option String :=
  match s.data with
  | [] => none
  | q :: rest =>
    if q.toNat = 34 ∧ rest.getLast? = some (Char.ofNat 34) then
      (readJSONChars rest.dropLast ReadMode.plain).map String.mk
    else none

/-- `forEach` from a given object. -/
def assignAll (data : JSObject) (valid : List Field) : JSObject :=
  valid.foldl (fun data field => setProperty data field.label field.value) data

/-- The text of the member for the key `k`: quoted key, colon, space, quoted value. -/
def memberText (o : JSObject) (k : String) : String :=
  quoteJSONString k ++ ":" ++ " " ++ quoteJSONString ((getProperty o k).getD "")

instance : IsTotal String indexLE :=
  ⟨fun a b => Nat.le_total (indexValue a) (indexValue b)⟩

instance : IsTrans String indexLE :=
  ⟨fun _ _ _ h1 h2 => Nat.le_trans h1 h2⟩

/-! ## The payload and its text, as the specification words them -/

/-- The valid fields in the words of the specification: the fields whose label and value are
both non-empty after trimming, in their order. -/
def specValidFields (F : List Field) : List Field :=
  F.filter (fun f => decide (trim f.label ≠ "" ∧ trim f.value ≠ ""))

/-- The distinct labels, each at the place of its first occurrence. -/
def firstOccurrences : List String → List String
  | [] => []
  | a :: l => a :: (firstOccurrences l).filter (fun b => b != a)

/-- The value of the last field that carries the label `k` (last write wins). -/
def lastValue (valid : List Field) (k : String) : String :=
  (((valid.filter (fun f => f.label == k)).getLast?).map Field.value).getD ""

/-- The entries of a mapping for a list of keys: each key with the value of the last field
carrying it. -/
def entriesFor (valid : List Field) (keys : List String) : List (String × String) :=
  keys.map (fun k => (k, lastValue valid k))

/-- The payload mapping in the words of the specification: one entry per distinct label of
the valid fields, keys in the order of the fields, the value of a repeated label being the
one of its last occurrence. -/
def specPayload (valid : List Field) : List (String × String) :=
  entriesFor valid (firstOccurrences (valid.map Field.label))

/-- A list of keys with those that are array indices first, in ascending numeric order, and
the other keys behind them in the order they had. -/
def indexKeysFirst (keys : List String) : List String :=
  (keys.filter isArrayIndex).insertionSort indexLE ++ keys.filter (fun k => !isArrayIndex k)

/-- The payload mapping with the keys in the order an object enumerates them. -/
def orderedPayload (valid : List Field) : List (String × String) :=
  entriesFor valid (indexKeysFirst (firstOccurrences (valid.map Field.label)))

/-- The pretty-printed JSON object of a list of entries with two spaces of indentation: the
two braces alone for no entry; otherwise the opening brace, one line per entry holding two
spaces, the key as a JSON string, a colon, a space and the value as a JSON string, the lines
separated by commas, and the closing brace on a line of its own. -/
def specPrettyText (entries : List (String × String)) : String :=
  if entries = [] then "\x7b\x7d"
  else "\x7b\n  " ++
    ",\n  ".intercalate (entries.map (fun e => quoteJSONString e.1 ++ ": " ++ quoteJSONString e.2))
    ++ "\n\x7d"

/-! ## Properties of `trim` and of the validity test -/

theorem string_eq_empty_iff (s : String) : s = "" ↔ s.data = [] := by
  cases s with
  | mk cs =>
    constructor
    · intro h
      have := congrArg String.data h
      simpa using this
    · intro h
      simp only at h
      subst h
      rfl

theorem all_of_all_dropWhile (p : Char → Bool) (cs : List Char)
    (h : ∀ c ∈ cs.dropWhile p, p c = true) : ∀ c ∈ cs, p c = true := by
  induction cs with
  | nil => intro c hc; cases hc
  | cons a as ih =>
    by_cases ha : p a = true
    · have hd : (a :: as).dropWhile p = as.dropWhile p := by simp [List.dropWhile, ha]
      rw [hd] at h
      intro c hc
      rcases List.mem_cons.mp hc with rfl | hc
      · exact ha
      · exact ih h c hc
    · have hd : (a :: as).dropWhile p = a :: as := by simp [List.dropWhile, ha]
      rw [hd] at h
      exact absurd (h a (List.mem_cons_self _ _)) ha

/-- The trimmed string is empty exactly when every character is white space or a line
terminator. -/
theorem trimChars_eq_nil_iff (cs : List Char) :
    trimChars cs = [] ↔ ∀ c ∈ cs, isTrimChar c = true := by
  unfold trimChars
  rw [List.reverse_eq_nil_iff, List.dropWhile_eq_nil_iff]
  constructor
  · intro h
    apply all_of_all_dropWhile
    intro c hc
    exact h c (List.mem_reverse.mpr hc)
  · intro h c hc
    exact h c ((List.dropWhile_sublist _).subset (List.mem_reverse.mp hc))

/-- A string survives `trim` exactly when it holds a character that is neither white space
nor a line terminator. -/
theorem trim_ne_empty_iff (s : String) :
    trim s ≠ "" ↔ ∃ c ∈ s.data, isTrimChar c = false := by
  rw [Ne, string_eq_empty_iff]
  show ¬ (trimChars s.data = []) ↔ _
  rw [trimChars_eq_nil_iff]
  push_neg
  simp

theorem truthy_iff (s : String) : truthy s = true ↔ s ≠ "" := by
  rw [Ne, string_eq_empty_iff]
  unfold truthy
  cases s.data <;> simp

theorem isValidField_iff (f : Field) :
    isValidField f = true ↔ trim f.label ≠ "" ∧ trim f.value ≠ "" := by
  unfold isValidField jsAnd
  by_cases h : truthy (trim f.label) = true
  · rw [if_pos h, truthy_iff]
    exact ⟨fun hv => ⟨(truthy_iff _).mp h, hv⟩, fun hv => hv.2⟩
  · rw [if_neg h]
    constructor
    · intro hv; exact absurd hv h
    · intro hv; exact absurd ((truthy_iff _).mpr hv.1) h

theorem mem_validFields (F : List Field) (f : Field) :
    f ∈ validFields F ↔ f ∈ F ∧ trim f.label ≠ "" ∧ trim f.value ≠ "" := by
  unfold validFields
  rw [List.mem_filter, isValidField_iff]

theorem validFields_eq_nil_iff (F : List Field) :
    validFields F = [] ↔ ∀ f ∈ F, ¬ (trim f.label ≠ "" ∧ trim f.value ≠ "") := by
  unfold validFields
  rw [List.filter_eq_nil_iff]
  constructor
  · intro h f hf hv
    exact h f hf ((isValidField_iff f).mpr hv)
  · intro h f hf hv
    exact h f hf ((isValidField_iff f).mp hv)

/-! ## C2: the valid fields -/

/-- C2: the `validFields` of `generateQRCode` are the fields filtered, in their order, by
"the trimmed label is not empty and the trimmed value is not empty"; a field is kept if and
only if both hold, and the kept fields are fields of the sequence as they stand (a
subsequence of it), label and value untrimmed. -/
theorem validFields_eq_filter (F : List Field) :
    validFields F = F.filter (fun f => decide (trim f.label ≠ "" ∧ trim f.value ≠ "")) ∧
    (∀ f, f ∈ validFields F ↔ f ∈ F ∧ trim f.label ≠ "" ∧ trim f.value ≠ "") ∧
    List.Sublist (validFields F) F := by
  refine ⟨?_, mem_validFields F, List.filter_sublist F⟩
  unfold validFields
  apply List.filter_congr
  intro f _
  by_cases h : trim f.label ≠ "" ∧ trim f.value ≠ ""
  · rw [(isValidField_iff f).mpr h]; exact (decide_eq_true h).symm
  · have hf : isValidField f = false := by
      cases hv : isValidField f
      · rfl
      · exact absurd ((isValidField_iff f).mp hv) h
    rw [hf]; exact (decide_eq_false h).symm

/-! ## C3: the rejection when no field is valid -/

/-- C3: `generateQRCode` shows the alert of line 31 (the `NoValidFields` rejection) if and
only if no field is valid, and then the codec is not called and the state, field collection
and `qrCodeUrl` alike, is the one before the call. -/
theorem generateQRCode_rejects_iff (codec : Codec) (s : AppState) :
    ((generateQRCode codec s).alerts = [noValidFieldsMessage] ↔
      ∀ f ∈ s.snapshot, ¬ (trim f.label ≠ "" ∧ trim f.value ≠ "")) ∧
    ((∀ f ∈ s.snapshot, ¬ (trim f.label ≠ "" ∧ trim f.value ≠ "")) →
      (generateQRCode codec s).codecCalls = [] ∧ (generateQRCode codec s).state = s ∧
      (generateQRCode codec s).state.snapshot = s.snapshot ∧
      (generateQRCode codec s).state.qrCodeUrl = s.qrCodeUrl) := by
  rw [← validFields_eq_nil_iff]
  by_cases h : validFields s.snapshot = []
  · have hg : generateQRCode codec s =
        { state := s, alerts := [noValidFieldsMessage], codecCalls := [],
          consoleErrors := [] } := by
      unfold generateQRCode
      simp [h]
    rw [hg]
    simp [h]
  · have hlen : ¬ ((validFields s.snapshot).length = 0) := by
      intro hl; exact h (List.length_eq_zero.mp hl)
    constructor
    · constructor
      · intro ha
        exfalso
        unfold generateQRCode at ha
        simp only [hlen, if_false] at ha
        cases hc : codec (jsonStringify2 (buildData (validFields s.snapshot))) qrOptions with
        | ok url => rw [hc] at ha; simp at ha
        | error err =>
          rw [hc] at ha
          simp only [List.cons.injEq, and_true] at ha
          revert ha
          decide
      · intro hv; exact absurd hv h
    · intro hv; exact absurd hv h

/-- C3 at the state whose only field has an empty label and the value `x`, holding an image:
the alert is shown, the codec is not called, the state is kept. -/
theorem generateQRCode_rejects_iff_witness :
    (generateQRCode (fun _ _ => Except.ok "data:new")
        { heap := fun _ => ⟨"", "x"⟩, next := 1, fields := [0], qrCodeUrl := "data:old" }).alerts
      = [noValidFieldsMessage] ∧
    (generateQRCode (fun _ _ => Except.ok "data:new")
        { heap := fun _ => ⟨"", "x"⟩, next := 1, fields := [0], qrCodeUrl := "data:old" }).codecCalls
      = [] ∧
    (generateQRCode (fun _ _ => Except.ok "data:new")
        { heap := fun _ => ⟨"", "x"⟩, next := 1, fields := [0], qrCodeUrl := "data:old" }
      ).state.qrCodeUrl = "data:old" := by
  have key := generateQRCode_rejects_iff (fun _ _ => Except.ok "data:new")
    { heap := fun _ => ⟨"", "x"⟩, next := 1, fields := [0], qrCodeUrl := "data:old" }
  have hno : ∀ f ∈ (AppState.snapshot
      { heap := fun _ => ⟨"", "x"⟩, next := 1, fields := [0], qrCodeUrl := "data:old" }),
      ¬ (trim f.label ≠ "" ∧ trim f.value ≠ "") := by
    intro f hf
    have : f = ⟨"", "x"⟩ := by simpa [AppState.snapshot, readFields] using hf
    subst this
    decide
  exact ⟨key.1.mpr hno, (key.2 hno).1, (key.2 hno).2.2.2⟩

/-! ## The field collection: invariant and snapshots -/

theorem initialState_wellFormed : initialState.WellFormed := by
  refine ⟨by decide, ?_⟩
  intro r hr
  have h : r = 0 ∨ r = 1 := by simpa [initialState] using hr
  rcases h with rfl | rfl <;> decide

theorem addField_wellFormed (s s' : AppState) (h : s.WellFormed)
    (hs : addField s = Except.ok s') : s'.WellFormed := by
  unfold addField at hs
  injection hs with hs
  subst hs
  obtain ⟨hn, hb⟩ := h
  refine ⟨?_, ?_⟩
  · show (s.fields ++ [s.next]).Nodup
    rw [List.nodup_append]
    refine ⟨hn, List.nodup_singleton _, ?_⟩
    intro a ha hb'
    rw [List.mem_singleton] at hb'
    subst hb'
    exact Nat.lt_irrefl _ (hb _ ha)
  · intro r hr
    show r < s.next + 1
    have hr' : r ∈ s.fields ++ [s.next] := hr
    rcases List.mem_append.mp hr' with h1 | h1
    · exact Nat.lt_succ_of_lt (hb r h1)
    · rw [List.mem_singleton] at h1
      subst h1
      exact Nat.lt_succ_self _

theorem filterWithIndexFrom_sublist {α : Type} (p : α → Nat → Bool) (k : Nat) (l : List α) :
    List.Sublist (filterWithIndexFrom p k l) l := by
  induction l generalizing k with
  | nil => exact List.Sublist.slnil
  | cons a as ih =>
    unfold filterWithIndexFrom
    split
    · exact (ih (k + 1)).cons₂ a
    · exact (ih (k + 1)).cons a

theorem removeField_wellFormed (s s' : AppState) (index : Int) (h : s.WellFormed)
    (hs : removeField s index = Except.ok s') : s'.WellFormed := by
  unfold removeField at hs
  injection hs with hs
  subst hs
  obtain ⟨hn, hb⟩ := h
  have hsub := filterWithIndexFrom_sublist (fun (_ : Nat) i => decide ((i : Int) ≠ index)) 0
    s.fields
  exact ⟨hn.sublist hsub, fun r hr => hb r (hsub.subset hr)⟩

theorem updateField_eq (s : AppState) (index : Int) (key : Key) (v : String) :
    updateField s index key v =
      match arrayGet s.fields index with
      | none => Except.error (JSError.typeError "Cannot set properties of undefined")
      | some obj =>
        Except.ok { s with
          heap := Function.update s.heap obj ((s.heap obj).setKey key v) } := rfl

theorem updateField_wellFormed (s s' : AppState) (index : Int) (key : Key) (v : String)
    (h : s.WellFormed) (hs : updateField s index key v = Except.ok s') : s'.WellFormed := by
  rw [updateField_eq] at hs
  cases hg : arrayGet s.fields index with
  | none => rw [hg] at hs; cases hs
  | some obj =>
    rw [hg] at hs
    injection hs with hs
    subst hs
    exact h

theorem clearAll_wellFormed (s s' : AppState) (hs : clearAll s = Except.ok s') :
    s'.WellFormed := by
  unfold clearAll at hs
  injection hs with hs
  subst hs
  refine ⟨?_, ?_⟩
  · show [s.next, s.next + 1].Nodup
    simp
  · intro r hr
    have hr' : r = s.next ∨ r = s.next + 1 := by simpa using hr
    show r < s.next + 2
    omega

theorem generateQRCode_fields (codec : Codec) (s : AppState) :
    (generateQRCode codec s).state.fields = s.fields ∧
    (generateQRCode codec s).state.next = s.next ∧
    (generateQRCode codec s).state.heap = s.heap := by
  unfold generateQRCode
  simp only
  split
  · exact ⟨rfl, rfl, rfl⟩
  · split <;> exact ⟨rfl, rfl, rfl⟩

/-- Every state the component reaches is well formed. -/
theorem reachable_wellFormed (s : AppState) (h : Reachable s) : s.WellFormed := by
  induction h with
  | initial => exact initialState_wellFormed
  | addField s s' _ hs ih => exact addField_wellFormed s s' ih hs
  | removeField s s' index _ hs ih => exact removeField_wellFormed s s' index ih hs
  | updateField s s' index key value _ hs ih =>
    exact updateField_wellFormed s s' index key value ih hs
  | generateQRCode codec s _ ih =>
    obtain ⟨hf, hn, _⟩ := generateQRCode_fields codec s
    unfold AppState.WellFormed
    rw [hf, hn]
    exact ih
  | clearAll s s' _ hs _ => exact clearAll_wellFormed s s' hs

/-- Every sequence of fields is the snapshot of a well-formed state. -/
theorem stateOfFields_spec (F : List Field) (url : String) :
    (stateOfFields F url).WellFormed ∧ (stateOfFields F url).snapshot = F ∧
    (stateOfFields F url).qrCodeUrl = url := by
  refine ⟨⟨List.nodup_range _, fun r hr => List.mem_range.mp hr⟩, ?_, rfl⟩
  show (List.range F.length).map (fun r => F.getD r ⟨"", ""⟩) = F
  apply List.ext_getElem
  · simp
  · intro n h1 h2
    simp [List.getD_eq_getElem?_getD, List.getElem?_eq_getElem h2]

/-- Reading an array of references is not affected by a write to a reference outside it. -/
theorem readFields_update_of_not_mem (heap : Nat → Field) (arr : List Nat) (r : Nat)
    (f : Field) (h : r ∉ arr) : readFields (Function.update heap r f) arr = readFields heap arr := by
  unfold readFields
  apply List.map_congr_left
  intro a ha
  have : a ≠ r := fun e => h (e ▸ ha)
  exact Function.update_noteq this _ _

/-- `addField` leaves the sequence held before the call as it was. -/
theorem addField_keeps_previous (s s' : AppState) (h : s.WellFormed)
    (hs : addField s = Except.ok s') : readFields s'.heap s.fields = s.snapshot := by
  unfold addField at hs
  injection hs with hs
  subst hs
  exact readFields_update_of_not_mem _ _ _ _ (fun hm => Nat.lt_irrefl _ (h.2 _ hm))

/-- `removeField` leaves the sequence held before the call as it was. -/
theorem removeField_keeps_previous (s s' : AppState) (index : Int)
    (hs : removeField s index = Except.ok s') : readFields s'.heap s.fields = s.snapshot := by
  unfold removeField at hs
  injection hs with hs
  subst hs
  rfl

/-- `clearAll` leaves the sequence held before the call as it was. -/
theorem clearAll_keeps_previous (s s' : AppState) (h : s.WellFormed)
    (hs : clearAll s = Except.ok s') : readFields s'.heap s.fields = s.snapshot := by
  unfold clearAll at hs
  injection hs with hs
  subst hs
  show readFields (Function.update (Function.update s.heap s.next _) (s.next + 1) _) s.fields = _
  rw [readFields_update_of_not_mem, readFields_update_of_not_mem]
  · rfl
  · exact fun hm => Nat.lt_irrefl _ (h.2 _ hm)
  · intro hm
    have := h.2 _ hm
    omega

/-! ## `removeField` -/

theorem filterWithIndexFrom_ne_of_lt {α : Type} (index : Int) (k : Nat) (l : List α)
    (h : index < k) :
    filterWithIndexFrom (fun _ i => decide ((i : Int) ≠ index)) k l = l := by
  induction l generalizing k with
  | nil => rfl
  | cons a as ih =>
    unfold filterWithIndexFrom
    have hk : ((k : Int) ≠ index) := by omega
    have hk1 : index < ((k + 1 : Nat) : Int) := by push_cast; omega
    simp only [decide_eq_true hk, if_true]
    rw [ih (k + 1) hk1]

theorem filterWithIndexFrom_ne_of_le {α : Type} (index : Int) (k : Nat) (l : List α)
    (h : (k : Int) ≤ index) :
    filterWithIndexFrom (fun _ i => decide ((i : Int) ≠ index)) k l =
      l.eraseIdx (index - k).toNat := by
  induction l generalizing k with
  | nil => simp [filterWithIndexFrom]
  | cons a as ih =>
    unfold filterWithIndexFrom
    by_cases hk : (k : Int) = index
    · have hd : decide ((k : Int) ≠ index) = false := decide_eq_false (by simpa using hk)
      have hlt : index < ((k + 1 : Nat) : Int) := by push_cast; omega
      have hz : (index - k).toNat = 0 := by omega
      simp only [hd]
      rw [filterWithIndexFrom_ne_of_lt index (k + 1) as hlt, hz]
      rfl
    · have hd : decide ((k : Int) ≠ index) = true := decide_eq_true hk
      have hle : ((k + 1 : Nat) : Int) ≤ index := by push_cast; omega
      have hs : (index - k).toNat = (index - ((k + 1 : Nat) : Int)).toNat + 1 := by
        push_cast; omega
      simp only [hd, if_true]
      rw [ih (k + 1) hle, hs]
      rfl

theorem readFields_eraseIdx (heap : Nat → Field) (arr : List Nat) (i : Nat) :
    readFields heap (arr.eraseIdx i) = (readFields heap arr).eraseIdx i := by
  unfold readFields
  induction arr generalizing i with
  | nil => rfl
  | cons a as ih =>
    cases i with
    | zero => rfl
    | succ n => simp [List.eraseIdx, ih n]

theorem removeField_eq_eraseIdx (s : AppState) (index : Int) (h0 : 0 ≤ index) :
    removeField s index = Except.ok { s with fields := s.fields.eraseIdx index.toNat } := by
  unfold removeField
  have h := filterWithIndexFrom_ne_of_le index 0 s.fields (by simpa using h0)
  simp only [Nat.cast_zero, sub_zero] at h
  simp only [h]

/-- C9: for an index in bounds, `removeField` yields the sequence without the field at that
position: one field shorter, the fields before the position where they were, the fields
after it one place earlier; a one-element sequence becomes the empty sequence. -/
theorem removeField_in_bounds (s : AppState) (index : Int) (h0 : 0 ≤ index)
    (h1 : index < s.snapshot.length) :
    ∃ s', removeField s index = Except.ok s' ∧
      s'.snapshot = s.snapshot.eraseIdx index.toNat ∧
      s'.snapshot.length = s.snapshot.length - 1 ∧
      (∀ j : Nat, j < index.toNat → s'.snapshot[j]? = s.snapshot[j]?) ∧
      (∀ j : Nat, index.toNat ≤ j → s'.snapshot[j]? = s.snapshot[j + 1]?) ∧
      (s.snapshot.length = 1 → s'.snapshot = []) := by
  refine ⟨_, removeField_eq_eraseIdx s index h0, ?_⟩
  have hs : AppState.snapshot { s with fields := s.fields.eraseIdx index.toNat } =
      s.snapshot.eraseIdx index.toNat := readFields_eraseIdx _ _ _
  have hlt : index.toNat < s.snapshot.length := by omega
  rw [hs]
  refine ⟨rfl, List.length_eraseIdx_of_lt hlt, ?_, ?_, ?_⟩
  · intro j hj
    exact List.getElem?_eraseIdx_of_lt _ _ _ hj
  · intro j hj
    exact List.getElem?_eraseIdx_of_ge _ _ _ hj
  · intro hone
    have hl : (s.snapshot.eraseIdx index.toNat).length = 0 := by
      rw [List.length_eraseIdx_of_lt hlt, hone]
    exact List.length_eq_zero.mp hl

/-- C9 at the state holding the single field `{ label: 'a', value: 'b' }` and index 0: the
sequence becomes empty. -/
theorem removeField_in_bounds_witness :
    ∃ s', removeField { heap := fun _ => ⟨"a", "b"⟩, next := 1, fields := [0], qrCodeUrl := "" } 0
        = Except.ok s' ∧ s'.snapshot = [] := by
  obtain ⟨s', h, _, _, _, _, hone⟩ := removeField_in_bounds
    { heap := fun _ => ⟨"a", "b"⟩, next := 1, fields := [0], qrCodeUrl := "" } 0
    (by decide) (by decide)
  exact ⟨s', h, hone (by decide)⟩

/-- C6, as the code has it: for an index out of bounds, `removeField` does not throw; it
completes and sets the field sequence to a copy equal to the one before, heap and
`qrCodeUrl` untouched. -/
theorem removeField_out_of_bounds (s : AppState) (index : Int)
    (h : index < 0 ∨ (s.snapshot.length : Int) ≤ index) :
    removeField s index = Except.ok s ∧
    ∀ s', removeField s index = Except.ok s' → s'.snapshot = s.snapshot := by
  have hlen : s.snapshot.length = s.fields.length := by
    simp [AppState.snapshot, readFields]
  have key : removeField s index = Except.ok s := by
    rcases h with h | h
    · unfold removeField
      have := filterWithIndexFrom_ne_of_lt index 0 s.fields (by simpa using h)
      simp only [this]
    · rw [removeField_eq_eraseIdx s index (by omega)]
      rw [List.eraseIdx_of_length_le (by omega)]
  refine ⟨key, ?_⟩
  intro s' hs'
  rw [key] at hs'
  injection hs' with hs'
  rw [hs']

/-- C6 as amended, at the initial state and the indices 2 and -1. -/
theorem removeField_out_of_bounds_witness :
    removeField initialState 2 = Except.ok initialState ∧
    removeField initialState (-1) = Except.ok initialState :=
  ⟨(removeField_out_of_bounds initialState 2 (Or.inr (by decide))).1,
   (removeField_out_of_bounds initialState (-1) (Or.inl (by decide))).1⟩

/-- C6 as the claim states it is false: on the two fields of the initial state, the index 2 is
out of bounds, and `removeField` throws nothing and leaves the two fields. -/
theorem removeField_out_of_bounds_no_error :
    (2 : Int) ≥ initialState.snapshot.length ∧
    (∀ e, removeField initialState 2 ≠ Except.error e) ∧
    ∃ s', removeField initialState 2 = Except.ok s' ∧
      s'.snapshot = [⟨"MAC Address", ""⟩, ⟨"Serial Number", ""⟩] := by
  refine ⟨by decide, ?_, ?_⟩
  · intro e h
    cases h
  · exact ⟨_, rfl, by decide⟩

/-! ## `updateField` -/

theorem getKey_setKey_same (f : Field) (key : Key) (v : String) :
    (f.setKey key v).getKey key = v := by
  cases key <;> rfl

theorem getKey_setKey_other (f : Field) (key k : Key) (v : String) (h : k ≠ key) :
    (f.setKey key v).getKey k = f.getKey k := by
  cases key <;> cases k <;> first | rfl | exact absurd rfl h

theorem arrayGet_in_bounds {α : Type} (arr : List α) (index : Int) (h0 : 0 ≤ index)
    (h1 : index < arr.length) :
    ∃ a, arrayGet arr index = some a ∧ arr[index.toNat]? = some a := by
  have hlt : index.toNat < arr.length := by omega
  refine ⟨arr[index.toNat], ?_, List.getElem?_eq_getElem hlt⟩
  unfold arrayGet
  rw [if_pos h0]
  exact List.getElem?_eq_getElem hlt

theorem arrayGet_out_of_bounds {α : Type} (arr : List α) (index : Int)
    (h : index < 0 ∨ (arr.length : Int) ≤ index) : arrayGet arr index = none := by
  unfold arrayGet
  rcases h with h | h
  · rw [if_neg (by omega)]
  · rw [if_pos (by omega)]
    exact List.getElem?_eq_none (by omega)

/-- For an index out of bounds `updateField` throws a `TypeError`. -/
theorem updateField_out_of_bounds (s : AppState) (index : Int) (key : Key) (v : String)
    (h : index < 0 ∨ (s.fields.length : Int) ≤ index) :
    ∃ e, updateField s index key v = Except.error e := by
  rw [updateField_eq, arrayGet_out_of_bounds s.fields index h]
  exact ⟨_, rfl⟩

/-- C8: on a state of the component (pairwise distinct references in `fields`), for an index
in bounds, `updateField` completes; the new sequence has the length of the old one, its field
at the index has the selected attribute equal to the given text as it stands and the other
attribute as before, and the fields at the other positions are the ones of the old sequence. -/
theorem updateField_in_bounds (s : AppState) (hwf : s.WellFormed) (index : Int)
    (h0 : 0 ≤ index) (h1 : index < s.snapshot.length) (key : Key) (v : String) :
    ∃ s', updateField s index key v = Except.ok s' ∧
      s'.snapshot.length = s.snapshot.length ∧
      (∃ f g, s.snapshot[index.toNat]? = some f ∧ s'.snapshot[index.toNat]? = some g ∧
        g.getKey key = v ∧ ∀ k, k ≠ key → g.getKey k = f.getKey k) ∧
      (∀ j : Nat, j ≠ index.toNat → s'.snapshot[j]? = s.snapshot[j]?) := by
  have hlen : s.snapshot.length = s.fields.length := by
    simp [AppState.snapshot, readFields]
  obtain ⟨obj, hget, hidx⟩ := arrayGet_in_bounds s.fields index h0 (by omega)
  refine ⟨{ s with heap := Function.update s.heap obj ((s.heap obj).setKey key v) }, ?_, ?_, ?_,
    ?_⟩
  · rw [updateField_eq, hget]
  · simp [AppState.snapshot, readFields]
  · refine ⟨s.heap obj, (s.heap obj).setKey key v, ?_, ?_, getKey_setKey_same _ _ _,
      fun k hk => getKey_setKey_other _ _ _ _ hk⟩
    · simp [AppState.snapshot, readFields, hidx]
    · simp [AppState.snapshot, readFields, hidx]
  · intro j hj
    simp only [AppState.snapshot, readFields, List.getElem?_map]
    cases hr : s.fields[j]? with
    | none => rfl
    | some r =>
      have hne : r ≠ obj := by
        intro e
        subst e
        have hjl : j < s.fields.length := by
          by_contra hc
          rw [List.getElem?_eq_none (by omega)] at hr
          cases hr
        have hil : index.toNat < s.fields.length := by omega
        have e1 : s.fields[j] = r := by
          rw [List.getElem?_eq_getElem hjl] at hr
          exact Option.some.inj hr
        have e2 : s.fields[index.toNat] = r := by
          rw [List.getElem?_eq_getElem hil] at hidx
          exact Option.some.inj hidx
        exact hj ((hwf.1.getElem_inj_iff).mp (e1.trans e2.symm))
      simp only [Option.map_some', Function.update_noteq hne]

/-- C8 at the initial state: writing `' 00:1A '` to the value of field 0 keeps the blanks, the
label of field 0 and field 1. -/
theorem updateField_in_bounds_witness :
    ∃ s', updateField initialState 0 Key.value " 00:1A " = Except.ok s' ∧
      s'.snapshot = [⟨"MAC Address", " 00:1A "⟩, ⟨"Serial Number", ""⟩] := by
  obtain ⟨s', h, _, _, _⟩ := updateField_in_bounds initialState initialState_wellFormed 0
    (by decide) (by decide) Key.value " 00:1A "
  refine ⟨s', h, ?_⟩
  have hget : arrayGet initialState.fields 0 = some 0 := by decide
  rw [updateField_eq, hget] at h
  injection h with h
  subst h
  decide

/-- C7 fails for `updateField`: on the initial state, `updateField(0, 'value', 'x')` writes
into the field object the old array refers to, so the sequence held before the call, which
read `MAC Address` with an empty value, reads `MAC Address` with the value `x` afterwards. -/
theorem updateField_changes_previous_snapshot :
    readFields initialState.heap initialState.fields =
      [⟨"MAC Address", ""⟩, ⟨"Serial Number", ""⟩] ∧
    ∃ s', updateField initialState 0 Key.value "x" = Except.ok s' ∧
      readFields s'.heap initialState.fields =
        [⟨"MAC Address", "x"⟩, ⟨"Serial Number", ""⟩] := by
  refine ⟨by decide, _, rfl, by decide⟩

/-! ## `clearAll` -/

/-- C10: from every state `clearAll` yields the two fields `MAC Address` and `Serial Number`
with empty values and an empty `qrCodeUrl`, which is the sequence and the image of the
initial state. -/
theorem clearAll_restores_defaults (s : AppState) :
    ∃ s', clearAll s = Except.ok s' ∧
      s'.snapshot = [⟨"MAC Address", ""⟩, ⟨"Serial Number", ""⟩] ∧
      s'.qrCodeUrl = "" ∧
      s'.snapshot = initialState.snapshot ∧ s'.qrCodeUrl = initialState.qrCodeUrl := by
  have hs : ∀ s' : AppState, clearAll s = Except.ok s' →
      s'.snapshot = [⟨"MAC Address", ""⟩, ⟨"Serial Number", ""⟩] := by
    intro s' h
    unfold clearAll at h
    injection h with h
    subst h
    simp [AppState.snapshot, readFields, Function.update_same, Function.update_noteq]
  refine ⟨_, rfl, hs _ rfl, rfl, ?_, rfl⟩
  rw [hs _ rfl]
  decide

/-! ## The payload object: keys and entries -/

theorem hasOwnProperty_iff (o : JSObject) (k : String) :
    hasOwnProperty o k = true ↔ k ∈ o.map Prod.fst := by
  unfold hasOwnProperty
  simp only [List.any_eq_true, beq_iff_eq, List.mem_map]

theorem map_fst_replaceValue (k v : String) (o : JSObject) :
    (replaceValue k v o).map Prod.fst = o.map Prod.fst := by
  induction o with
  | nil => rfl
  | cons p rest ih =>
    unfold replaceValue
    split
    · rfl
    · simp only [List.map_cons, ih]

theorem setProperty_of_fresh (o : JSObject) (k v : String) (h1 : k ∉ o.map Prod.fst)
    (h2 : k ≠ "__proto__") : setProperty o k v = o ++ [(k, v)] := by
  unfold setProperty
  have h : ¬ (hasOwnProperty o k = true) := fun hh => h1 ((hasOwnProperty_iff o k).mp hh)
  rw [if_neg h, if_neg h2]

theorem setProperty_of_own (o : JSObject) (k v : String) (h1 : k ∈ o.map Prod.fst) :
    setProperty o k v = replaceValue k v o := by
  unfold setProperty
  rw [if_pos ((hasOwnProperty_iff o k).mpr h1)]

theorem setProperty_proto (o : JSObject) (v : String) (h1 : "__proto__" ∉ o.map Prod.fst) :
    setProperty o "__proto__" v = o := by
  unfold setProperty
  have h : ¬ (hasOwnProperty o "__proto__" = true) :=
    fun hh => h1 ((hasOwnProperty_iff o _).mp hh)
  rw [if_neg h, if_pos rfl]

/-- The keys after an assignment: unchanged when the key is an own key or is `__proto__`, and
the key added last otherwise. -/
theorem map_fst_setProperty (o : JSObject) (k v : String) :
    (setProperty o k v).map Prod.fst =
      if k ∈ o.map Prod.fst ∨ k = "__proto__" then o.map Prod.fst
      else o.map Prod.fst ++ [k] := by
  by_cases h1 : k ∈ o.map Prod.fst
  · rw [setProperty_of_own o k v h1, map_fst_replaceValue, if_pos (Or.inl h1)]
  · by_cases h2 : k = "__proto__"
    · subst h2
      rw [setProperty_proto o v h1, if_pos (Or.inr rfl)]
    · rw [setProperty_of_fresh o k v h1 h2, if_neg (by tauto)]
      simp

theorem nodup_keys_setProperty (o : JSObject) (k v : String) (h : (o.map Prod.fst).Nodup) :
    ((setProperty o k v).map Prod.fst).Nodup := by
  rw [map_fst_setProperty]
  split
  · exact h
  · rename_i hk
    rw [List.nodup_append]
    refine ⟨h, List.nodup_singleton _, ?_⟩
    intro a ha hb
    rw [List.mem_singleton] at hb
    subst hb
    exact hk (Or.inl ha)

theorem buildData_eq_assignAll (valid : List Field) : buildData valid = assignAll [] valid := rfl

theorem assignAll_cons (data : JSObject) (f : Field) (fs : List Field) :
    assignAll data (f :: fs) = assignAll (setProperty data f.label f.value) fs := rfl

theorem assignAll_append (data : JSObject) (fs : List Field) (f : Field) :
    assignAll data (fs ++ [f]) = setProperty (assignAll data fs) f.label f.value := by
  unfold assignAll
  rw [List.foldl_append]
  rfl

theorem nodup_keys_assignAll (data : JSObject) (fs : List Field)
    (h : (data.map Prod.fst).Nodup) : ((assignAll data fs).map Prod.fst).Nodup := by
  induction fs generalizing data with
  | nil => exact h
  | cons f fs ih =>
    rw [assignAll_cons]
    exact ih _ (nodup_keys_setProperty _ _ _ h)

theorem nodup_keys_buildData (valid : List Field) :
    ((buildData valid).map Prod.fst).Nodup :=
  nodup_keys_assignAll [] valid List.nodup_nil

/-- With pairwise distinct labels, none of them `__proto__` and none a key of the object
already, the assignments append one property per field, in the order of the fields. -/
theorem assignAll_of_distinct (data : JSObject) (fs : List Field)
    (hnd : (fs.map Field.label).Nodup)
    (hproto : "__proto__" ∉ fs.map Field.label)
    (hdisj : ∀ f ∈ fs, f.label ∉ data.map Prod.fst) :
    assignAll data fs = data ++ fs.map (fun f => (f.label, f.value)) := by
  induction fs generalizing data with
  | nil => simp [assignAll]
  | cons f fs ih =>
    rw [assignAll_cons]
    have hf : f.label ∉ data.map Prod.fst := hdisj f (List.mem_cons_self _ _)
    have hp : f.label ≠ "__proto__" := by
      intro e
      apply hproto
      rw [List.map_cons, e]
      exact List.mem_cons_self _ _
    rw [setProperty_of_fresh data f.label f.value hf hp]
    rw [List.map_cons, List.nodup_cons] at hnd
    rw [ih (data ++ [(f.label, f.value)]) hnd.2]
    · simp
    · intro hm
      apply hproto
      rw [List.map_cons]
      exact List.mem_cons_of_mem _ hm
    · intro g hg hm
      rw [List.map_append, List.mem_append] at hm
      rcases hm with hm | hm
      · exact hdisj g (List.mem_cons_of_mem _ hg) hm
      · simp only [List.map_cons, List.map_nil, List.mem_singleton] at hm
        apply hnd.1
        rw [← hm]
        exact List.mem_map_of_mem _ hg

theorem validFields_eq_self (F : List Field)
    (h : ∀ f ∈ F, trim f.label ≠ "" ∧ trim f.value ≠ "") : validFields F = F := by
  unfold validFields
  rw [List.filter_eq_self]
  intro f hf
  exact (isValidField_iff f).mpr (h f hf)

/-! ## The order of the keys and the members of the JSON text -/

/-- The own property keys are the keys of the properties, reordered. -/
theorem perm_ownPropertyKeys (o : JSObject) :
    List.Perm (ownPropertyKeys o) (o.map Prod.fst) := by
  unfold ownPropertyKeys
  exact (List.Perm.append_right _ (List.perm_insertionSort indexLE _)).trans
    (List.filter_append_perm isArrayIndex _)

theorem mem_ownPropertyKeys (o : JSObject) (k : String) :
    k ∈ ownPropertyKeys o ↔ k ∈ o.map Prod.fst :=
  (perm_ownPropertyKeys o).mem_iff

/-- Without array-index keys, the own property keys come in the order of creation. -/
theorem ownPropertyKeys_of_no_index (o : JSObject)
    (h : ∀ k ∈ o.map Prod.fst, isArrayIndex k = false) :
    ownPropertyKeys o = o.map Prod.fst := by
  unfold ownPropertyKeys
  have h1 : (o.map Prod.fst).filter isArrayIndex = [] := by
    rw [List.filter_eq_nil_iff]
    intro k hk
    rw [h k hk]
    simp
  have h2 : (o.map Prod.fst).filter (fun k => !isArrayIndex k) = o.map Prod.fst := by
    rw [List.filter_eq_self]
    intro k hk
    rw [h k hk]
    rfl
  simp only [h1, h2]
  rfl

theorem getProperty_of_mem (o : JSObject) (k : String) (h : k ∈ o.map Prod.fst) :
    ∃ v, getProperty o k = some v ∧ (k, v) ∈ o := by
  induction o with
  | nil => cases h
  | cons p rest ih =>
    by_cases hp : p.1 = k
    · refine ⟨p.2, ?_, ?_⟩
      · unfold getProperty
        simp [List.find?, hp]
      · rw [← hp]
        exact List.mem_cons_self _ _
    · have hk : k ∈ rest.map Prod.fst := by
        rw [List.map_cons] at h
        rcases List.mem_cons.mp h with h | h
        · exact absurd h.symm hp
        · exact h
      obtain ⟨v, hv, hm⟩ := ih hk
      refine ⟨v, ?_, List.mem_cons_of_mem _ hm⟩
      unfold getProperty at hv ⊢
      have hb : (p.1 == k) = false := by simpa using hp
      rw [List.find?_cons, hb]
      exact hv

/-- With the gap of two spaces, there is one member per own key, in the order of the keys. -/
theorem jsonMembers_eq_map (o : JSObject) :
    jsonMembers "  " o = (ownPropertyKeys o).map (memberText o) := by
  unfold jsonMembers
  have hall : ∀ k ∈ ownPropertyKeys o, k ∈ o.map Prod.fst :=
    fun k hk => (mem_ownPropertyKeys o k).mp hk
  generalize ownPropertyKeys o = ks at hall
  induction ks with
  | nil => rfl
  | cons k ks ih =>
    obtain ⟨v, hv, _⟩ := getProperty_of_mem o k (hall k (List.mem_cons_self _ _))
    have hgap : ("  " : String) ≠ "" := by decide
    rw [List.filterMap_cons, List.map_cons, ← ih (fun k hk => hall k (List.mem_cons_of_mem _ hk))]
    simp only [hv, Option.map_some', if_neg hgap, memberText, Option.getD_some]

/-- C1, as the code has it: for a sequence of valid fields whose labels are pairwise distinct
and none of which is `__proto__`, the payload object has one property per field, label and
value as they stand, created in the order of the fields; the keys that `JSON.stringify`
walks are the labels that are array indices in ascending numeric order, followed by the
other labels in the order of the fields; the text has one member per field, in the order of
those keys; and when no label is an array index the keys are in the order of the fields. -/
theorem payload_of_distinct_labels (F : List Field)
    (hvalid : ∀ f ∈ F, trim f.label ≠ "" ∧ trim f.value ≠ "")
    (hnd : (F.map Field.label).Nodup)
    (hproto : "__proto__" ∉ F.map Field.label) :
    buildData (validFields F) = F.map (fun f => (f.label, f.value)) ∧
    ownPropertyKeys (buildData (validFields F)) =
      ((F.map Field.label).filter isArrayIndex).insertionSort indexLE ++
        (F.map Field.label).filter (fun k => !isArrayIndex k) ∧
    List.Sorted indexLE (((F.map Field.label).filter isArrayIndex).insertionSort indexLE) ∧
    List.Perm (ownPropertyKeys (buildData (validFields F))) (F.map Field.label) ∧
    jsonMembers "  " (buildData (validFields F)) =
      (ownPropertyKeys (buildData (validFields F))).map
        (memberText (buildData (validFields F))) ∧
    (jsonMembers "  " (buildData (validFields F))).length = F.length ∧
    ((∀ f ∈ F, isArrayIndex f.label = false) →
      ownPropertyKeys (buildData (validFields F)) = F.map Field.label) := by
  have hdata : buildData (validFields F) = F.map (fun f => (f.label, f.value)) := by
    rw [validFields_eq_self F hvalid, buildData_eq_assignAll,
      assignAll_of_distinct [] F hnd hproto (fun f _ hm => by cases hm)]
    rfl
  have hkeys : (buildData (validFields F)).map Prod.fst = F.map Field.label := by
    rw [hdata, List.map_map]
    rfl
  have hperm := perm_ownPropertyKeys (buildData (validFields F))
  rw [hkeys] at hperm
  refine ⟨hdata, ?_, List.sorted_insertionSort indexLE _, hperm, jsonMembers_eq_map _, ?_, ?_⟩
  · unfold ownPropertyKeys
    simp only [hkeys]
  · rw [jsonMembers_eq_map, List.length_map, hperm.length_eq, List.length_map]
  · intro hno
    rw [ownPropertyKeys_of_no_index _ (by
      intro k hk
      rw [hkeys] at hk
      obtain ⟨f, hf, rfl⟩ := List.mem_map.mp hk
      exact hno f hf), hkeys]

/-- C1 as amended, at the fields `b`/`x`, `a`/`y`: the keys are `b`, `a`, in the order of the
fields. -/
theorem payload_of_distinct_labels_witness :
    buildData (validFields [⟨"b", "x"⟩, ⟨"a", "y"⟩]) = [("b", "x"), ("a", "y")] ∧
    ownPropertyKeys (buildData (validFields [⟨"b", "x"⟩, ⟨"a", "y"⟩])) = ["b", "a"] := by
  have h := payload_of_distinct_labels [⟨"b", "x"⟩, ⟨"a", "y"⟩] (by decide) (by decide)
    (by decide)
  exact ⟨h.1, h.2.2.2.2.2.2 (by decide)⟩

/-- C1 as the claim states it is false. The fields `2`/`a`, `1`/`b` are valid and their labels
distinct, and the keys of the payload come out as `1`, `2`, the reverse of the fields. The
single field `__proto__`/`x` is valid, and the payload has no entry at all. -/
theorem payload_key_order_counterexample :
    validFields [⟨"2", "a"⟩, ⟨"1", "b"⟩] = [⟨"2", "a"⟩, ⟨"1", "b"⟩] ∧
    ownPropertyKeys (buildData (validFields [⟨"2", "a"⟩, ⟨"1", "b"⟩])) = ["1", "2"] ∧
    jsonStringify2 (buildData (validFields [⟨"2", "a"⟩, ⟨"1", "b"⟩])) =
      "\x7b\n  \"1\": \"b\",\n  \"2\": \"a\"\n\x7d" ∧
    validFields [⟨"__proto__", "x"⟩] = [⟨"__proto__", "x"⟩] ∧
    buildData (validFields [⟨"__proto__", "x"⟩]) = [] ∧
    jsonStringify2 (buildData (validFields [⟨"__proto__", "x"⟩])) = "\x7b\x7d" := by
  refine ⟨by decide, by decide, by decide, by decide, by decide, by decide⟩

/-! ## Repeated labels -/

theorem filter_key_of_not_mem (o : JSObject) (l : String) (h : l ∉ o.map Prod.fst) :
    o.filter (fun p => p.1 == l) = [] := by
  rw [List.filter_eq_nil_iff]
  intro p hp hb
  apply h
  rw [beq_iff_eq] at hb
  rw [← hb]
  exact List.mem_map_of_mem _ hp

theorem filter_key_replaceValue_same (o : JSObject) (k v : String)
    (hnd : (o.map Prod.fst).Nodup) (hk : k ∈ o.map Prod.fst) :
    (replaceValue k v o).filter (fun p => p.1 == k) = [(k, v)] := by
  induction o with
  | nil => cases hk
  | cons p rest ih =>
    rw [List.map_cons, List.nodup_cons] at hnd
    unfold replaceValue
    by_cases hp : p.1 = k
    · rw [if_pos hp]
      have hnot : k ∉ rest.map Prod.fst := hp ▸ hnd.1
      rw [List.filter_cons, filter_key_of_not_mem rest k hnot]
      simp [hp]
    · rw [if_neg hp]
      have hk' : k ∈ rest.map Prod.fst := by
        rw [List.map_cons] at hk
        rcases List.mem_cons.mp hk with h | h
        · exact absurd h.symm hp
        · exact h
      have hb : (p.1 == k) = false := by simpa using hp
      rw [List.filter_cons, hb]
      exact ih hnd.2 hk'

theorem filter_key_replaceValue_other (o : JSObject) (k l v : String) (h : k ≠ l) :
    (replaceValue k v o).filter (fun p => p.1 == l) = o.filter (fun p => p.1 == l) := by
  induction o with
  | nil => rfl
  | cons p rest ih =>
    unfold replaceValue
    by_cases hp : p.1 = k
    · rw [if_pos hp]
      have h1 : (p.1 == l) = false := by
        rw [hp]; simpa using h
      simp only [List.filter_cons, h1]
      rfl
    · rw [if_neg hp]
      simp only [List.filter_cons, ih]

/-- After `o[k] = v` with a key other than `__proto__`, the object holds exactly one property
with the key `k`, and its value is `v`. -/
theorem filter_key_setProperty_same (o : JSObject) (k v : String)
    (hnd : (o.map Prod.fst).Nodup) (hp : k ≠ "__proto__") :
    (setProperty o k v).filter (fun p => p.1 == k) = [(k, v)] := by
  by_cases hk : k ∈ o.map Prod.fst
  · rw [setProperty_of_own o k v hk]
    exact filter_key_replaceValue_same o k v hnd hk
  · rw [setProperty_of_fresh o k v hk hp, List.filter_append, filter_key_of_not_mem o k hk]
    simp

/-- The assignment `o[k] = v` leaves the properties with another key as they were. -/
theorem filter_key_setProperty_other (o : JSObject) (k l v : String) (h : k ≠ l) :
    (setProperty o k v).filter (fun p => p.1 == l) = o.filter (fun p => p.1 == l) := by
  unfold setProperty
  split
  · exact filter_key_replaceValue_other o k l v h
  · split
    · rfl
    · rw [List.filter_append]
      have hb : (k == l) = false := by simpa using h
      simp [hb]

/-- Last write wins, for every label but `__proto__`: when `f` is the last valid field that
carries the label `l`, the payload holds exactly one property with the key `l`, and its value
is the value of `f`. -/
theorem buildData_last_write_wins (valid : List Field) (l : String) (hl : l ≠ "__proto__")
    (f : Field) (hlast : (valid.filter (fun g => g.label == l)).getLast? = some f) :
    (buildData valid).filter (fun p => p.1 == l) = [(l, f.value)] := by
  induction valid using List.reverseRecOn with
  | nil => simp at hlast
  | append_singleton fs g ih =>
    rw [buildData_eq_assignAll, assignAll_append, ← buildData_eq_assignAll]
    by_cases hg : g.label = l
    · have hb : (g.label == l) = true := by simpa using hg
      rw [List.filter_append, List.filter_cons, hb] at hlast
      simp only [List.filter_nil, if_true, List.getLast?_concat] at hlast
      have hfg : g = f := Option.some.inj hlast
      subst hfg
      rw [hg]
      exact filter_key_setProperty_same _ l g.value (nodup_keys_buildData fs) hl
    · have hb : (g.label == l) = false := by simpa using hg
      rw [List.filter_append, List.filter_cons, hb] at hlast
      simp only [List.filter_nil, Bool.false_eq_true, if_false, List.append_nil] at hlast
      rw [filter_key_setProperty_other _ g.label l g.value hg]
      exact ih hlast

/-- The example of the specification: the fields `A`/`1`, `A`/`2` yield the single entry
`A`/`2`. -/
theorem buildData_last_write_wins_example :
    buildData (validFields [⟨"A", "1"⟩, ⟨"A", "2"⟩]) = [("A", "2")] ∧
    jsonStringify2 (buildData (validFields [⟨"A", "1"⟩, ⟨"A", "2"⟩])) =
      "\x7b\n  \"A\": \"2\"\n\x7d" := by
  refine ⟨by decide, by decide⟩

/-- C4 fails for the label `__proto__`: the fields `__proto__`/`1`, `__proto__`/`2` are both
valid and carry the same label, and the payload holds no entry for it; the text handed to
the codec is the empty object. -/
theorem buildData_proto_twice :
    validFields [⟨"__proto__", "1"⟩, ⟨"__proto__", "2"⟩] =
      [⟨"__proto__", "1"⟩, ⟨"__proto__", "2"⟩] ∧
    buildData (validFields [⟨"__proto__", "1"⟩, ⟨"__proto__", "2"⟩]) = [] ∧
    (buildData (validFields [⟨"__proto__", "1"⟩, ⟨"__proto__", "2"⟩])).filter
      (fun p => p.1 == "__proto__") ≠ [("__proto__", "2")] ∧
    jsonStringify2 (buildData (validFields [⟨"__proto__", "1"⟩, ⟨"__proto__", "2"⟩])) =
      "\x7b\x7d" := by
  refine ⟨by decide, by decide, by decide, by decide⟩

/-! ## The text handed to the codec -/

theorem mem_replaceValue (o : JSObject) (k v : String) (p : String × String)
    (h : p ∈ replaceValue k v o) : p ∈ o ∨ p = (k, v) := by
  induction o with
  | nil => cases h
  | cons q rest ih =>
    unfold replaceValue at h
    by_cases hq : q.1 = k
    · rw [if_pos hq] at h
      rcases List.mem_cons.mp h with h | h
      · right; rw [h, hq]
      · left; exact List.mem_cons_of_mem _ h
    · rw [if_neg hq] at h
      rcases List.mem_cons.mp h with h | h
      · left; rw [h]; exact List.mem_cons_self _ _
      · rcases ih h with h | h
        · left; exact List.mem_cons_of_mem _ h
        · right; exact h

theorem mem_setProperty (o : JSObject) (k v : String) (p : String × String)
    (h : p ∈ setProperty o k v) : p ∈ o ∨ p = (k, v) := by
  unfold setProperty at h
  split at h
  · exact mem_replaceValue o k v p h
  · split at h
    · exact Or.inl h
    · rcases List.mem_append.mp h with h | h
      · exact Or.inl h
      · exact Or.inr (List.mem_singleton.mp h)

theorem mem_assignAll (data : JSObject) (fs : List Field) (p : String × String)
    (h : p ∈ assignAll data fs) : p ∈ data ∨ ∃ f ∈ fs, f.label = p.1 ∧ f.value = p.2 := by
  induction fs generalizing data with
  | nil => exact Or.inl h
  | cons f fs ih =>
    rw [assignAll_cons] at h
    rcases ih _ h with h | ⟨g, hg, hgp⟩
    · rcases mem_setProperty data f.label f.value p h with h | h
      · exact Or.inl h
      · right
        refine ⟨f, List.mem_cons_self _ _, ?_⟩
        rw [h]
        exact ⟨rfl, rfl⟩
    · exact Or.inr ⟨g, List.mem_cons_of_mem _ hg, hgp⟩

/-- Every entry of the payload is the label and the value of a valid field, as they stand. -/
theorem mem_buildData (valid : List Field) (k v : String) (h : (k, v) ∈ buildData valid) :
    ∃ f ∈ valid, f.label = k ∧ f.value = v := by
  rcases mem_assignAll [] valid (k, v) h with h | h
  · cases h
  · exact h

theorem quoteChar_of_plain (c : Char) (h : 32 ≤ c.toNat ∧ c.toNat ≠ 34 ∧ c.toNat ≠ 92) :
    quoteChar c = [c] := by
  obtain ⟨h1, h2, h3⟩ := h
  unfold quoteChar
  simp only
  rw [if_neg (by omega), if_neg (by omega), if_neg (by omega), if_neg (by omega),
    if_neg (by omega), if_neg h2, if_neg h3, if_neg (by omega)]

/-- A string without control characters, double quotes and backslashes is quoted as it
stands, between two double quotes. -/
theorem quoteJSONString_of_plain (t : String)
    (h : ∀ c ∈ t.data, 32 ≤ c.toNat ∧ c.toNat ≠ 34 ∧ c.toNat ≠ 92) :
    quoteJSONString t = "\"" ++ t ++ "\"" := by
  apply String.ext
  have hflat : t.data.flatMap quoteChar = t.data := by
    generalize t.data = cs at h
    induction cs with
    | nil => rfl
    | cons c cs ih =>
      rw [List.flatMap_cons, quoteChar_of_plain c (h c (List.mem_cons_self _ _)),
        ih (fun d hd => h d (List.mem_cons_of_mem _ hd))]
      rfl
  unfold quoteJSONString
  simp only [String.data_append, hflat]
  rfl

theorem char_eq_of_toNat (c : Char) (n : Nat) (h : c.toNat = n) : c = Char.ofNat n := by
  rw [← h, Char.ofNat_toNat]

theorem readJSONChars_quoteChar (c : Char) (tail : List Char) :
    readJSONChars (quoteChar c ++ tail) ReadMode.plain =
      (readJSONChars tail ReadMode.plain).map (fun out => c :: out) := by
  by_cases hlt : c.toNat < 32
  · obtain ⟨n, hn, rfl⟩ : ∃ n, n < 32 ∧ c = Char.ofNat n :=
      ⟨c.toNat, hlt, (Char.ofNat_toNat c).symm⟩
    interval_cases n <;> rfl
  · by_cases h34 : c.toNat = 34
    · have := char_eq_of_toNat c 34 h34
      subst this
      rfl
    · by_cases h92 : c.toNat = 92
      · have := char_eq_of_toNat c 92 h92
        subst this
        rfl
      · rw [quoteChar_of_plain c ⟨by omega, h34, h92⟩]
        show readJSONChars (c :: tail) ReadMode.plain = _
        rw [readJSONChars, if_neg h92, if_neg (by omega)]

theorem readJSONChars_quoted (cs tail : List Char) :
    readJSONChars (cs.flatMap quoteChar ++ tail) ReadMode.plain =
      (readJSONChars tail ReadMode.plain).map (fun out => cs ++ out) := by
  induction cs with
  | nil => simp
  | cons c cs ih =>
    rw [List.flatMap_cons, List.append_assoc, readJSONChars_quoteChar, ih]
    cases readJSONChars tail ReadMode.plain <;> rfl

/-- Quoting loses nothing: the literal `quoteJSONString t` stands for `t`, whatever the
characters of `t`, leading and trailing white space included. -/
theorem unquoteJSONString_quoteJSONString (t : String) :
    unquoteJSONString (quoteJSONString t) = some t := by
  unfold unquoteJSONString quoteJSONString
  simp only
  have hq : (Char.ofNat 34).toNat = 34 := by decide
  rw [if_pos ⟨hq, List.getLast?_concat _⟩, List.dropLast_concat]
  have h := readJSONChars_quoted t.data []
  rw [List.append_nil] at h
  rw [h]
  simp [readJSONChars]

/-- The text of `JSON.stringify(data, null, 2)`: the empty object for an object without
properties; otherwise an opening brace, the members, each on a line of its own behind two
spaces and separated by commas, in the order of the own property keys, and a closing brace
on the last line. -/
theorem jsonStringify2_eq (o : JSObject) :
    jsonStringify2 o =
      if o = [] then "\x7b\x7d"
      else "\x7b\n  " ++ ",\n  ".intercalate ((ownPropertyKeys o).map (memberText o)) ++
        "\n\x7d" := by
  unfold jsonStringify2 serializeJSONObject
  simp only [jsonMembers_eq_map]
  by_cases ho : o = []
  · subst ho
    rfl
  · have hne : ownPropertyKeys o ≠ [] := by
      intro he
      have hp := perm_ownPropertyKeys o
      rw [he] at hp
      have := hp.length_eq
      simp only [List.length_nil, List.length_map] at this
      exact ho (List.length_eq_zero.mp this.symm)
    have hemp : ((ownPropertyKeys o).map (memberText o)).isEmpty = false := by
      cases hk : ownPropertyKeys o with
      | nil => exact absurd hk hne
      | cons a as => rfl
    rw [hemp, if_neg ho]
    simp only [Bool.false_eq_true, if_false, String.empty_append, String.append_empty,
      String.append_assoc]
    rfl

/-! ## C5: the call of the codec -/

theorem validFields_eq_specValidFields (F : List Field) : validFields F = specValidFields F := by
  unfold validFields specValidFields
  apply List.filter_congr
  intro f _
  by_cases h : trim f.label ≠ "" ∧ trim f.value ≠ ""
  · rw [(isValidField_iff f).mpr h]; exact (decide_eq_true h).symm
  · have hf : isValidField f = false := by
      cases hv : isValidField f
      · rfl
      · exact absurd ((isValidField_iff f).mp hv) h
    rw [hf]; exact (decide_eq_false h).symm

theorem mem_firstOccurrences (l : List String) (k : String) :
    k ∈ firstOccurrences l ↔ k ∈ l := by
  induction l with
  | nil => rfl
  | cons a l ih =>
    unfold firstOccurrences
    rw [List.mem_cons, List.mem_cons, List.mem_filter, ih]
    constructor
    · rintro (h | ⟨h, _⟩)
      · exact Or.inl h
      · exact Or.inr h
    · intro h
      by_cases hk : k = a
      · exact Or.inl hk
      · rcases h with h | h
        · exact absurd h hk
        · exact Or.inr ⟨h, by simpa using hk⟩

theorem firstOccurrences_append_singleton (l : List String) (a : String) :
    firstOccurrences (l ++ [a]) =
      if a ∈ l then firstOccurrences l else firstOccurrences l ++ [a] := by
  induction l with
  | nil => simp [firstOccurrences]
  | cons b l ih =>
    rw [List.cons_append]
    unfold firstOccurrences
    rw [ih]
    by_cases hab : a = b
    · subst hab
      rw [if_pos (List.mem_cons_self _ _)]
      by_cases hal : a ∈ l
      · rw [if_pos hal]
      · rw [if_neg hal, List.filter_append]
        simp
    · have hmem : a ∈ b :: l ↔ a ∈ l := by
        rw [List.mem_cons]
        exact ⟨fun h => h.resolve_left hab, Or.inr⟩
      by_cases hal : a ∈ l
      · rw [if_pos hal, if_pos (hmem.mpr hal)]
      · rw [if_neg hal, if_neg (fun h => hal (hmem.mp h)), List.filter_append]
        have hb : (a != b) = true := by simpa using hab
        simp [hb]

/-- The keys of the payload object, in the order of creation, are the distinct labels of the
valid fields at their first occurrence, when no label is `__proto__`. -/
theorem keys_buildData (valid : List Field) (hproto : "__proto__" ∉ valid.map Field.label) :
    (buildData valid).map Prod.fst = firstOccurrences (valid.map Field.label) := by
  induction valid using List.reverseRecOn with
  | nil => rfl
  | append_singleton fs g ih =>
    have hfs : "__proto__" ∉ fs.map Field.label := by
      intro hm
      apply hproto
      rw [List.map_append]
      exact List.mem_append_left _ hm
    have hg : g.label ≠ "__proto__" := by
      intro e
      apply hproto
      rw [List.map_append, ← e]
      exact List.mem_append_right _ (List.mem_singleton.mpr rfl)
    rw [buildData_eq_assignAll, assignAll_append, ← buildData_eq_assignAll,
      map_fst_setProperty, ih hfs, List.map_append, List.map_cons, List.map_nil,
      firstOccurrences_append_singleton]
    by_cases hm : g.label ∈ fs.map Field.label
    · rw [if_pos hm, if_pos (Or.inl ((mem_firstOccurrences _ _).mpr hm))]
    · rw [if_neg hm, if_neg]
      rintro (h | h)
      · exact hm ((mem_firstOccurrences _ _).mp h)
      · exact hg h

/-- The value the payload object holds for a key is the value of the last valid field that
carries the key as its label. -/
theorem getProperty_buildData (valid : List Field)
    (hproto : "__proto__" ∉ valid.map Field.label) (k : String)
    (hk : k ∈ (buildData valid).map Prod.fst) :
    getProperty (buildData valid) k = some (lastValue valid k) := by
  obtain ⟨v, hv, hm⟩ := getProperty_of_mem (buildData valid) k hk
  obtain ⟨f, hf, hfk, _⟩ := mem_buildData valid k v hm
  have hkp : k ≠ "__proto__" := by
    intro e
    apply hproto
    rw [← e, ← hfk]
    exact List.mem_map_of_mem _ hf
  have hne : valid.filter (fun g => g.label == k) ≠ [] := by
    intro he
    have : f ∈ valid.filter (fun g => g.label == k) := by
      rw [List.mem_filter]
      exact ⟨hf, by simpa using hfk⟩
    rw [he] at this
    cases this
  cases hlast : (valid.filter (fun g => g.label == k)).getLast? with
  | none => exact absurd (List.getLast?_eq_none_iff.mp hlast) hne
  | some g =>
    have hfil := buildData_last_write_wins valid k hkp g hlast
    have hmem : (k, v) ∈ (buildData valid).filter (fun p => p.1 == k) := by
      rw [List.mem_filter]
      exact ⟨hm, by simp⟩
    rw [hfil, List.mem_singleton] at hmem
    have hvg : v = g.value := (Prod.mk.inj hmem).2
    rw [hv, hvg]
    unfold lastValue
    rw [hlast]
    rfl

/-- The payload object is the mapping of the specification, when no label is `__proto__`. -/
theorem buildData_eq_specPayload (valid : List Field)
    (hproto : "__proto__" ∉ valid.map Field.label) : buildData valid = specPayload valid := by
  unfold specPayload entriesFor
  rw [← keys_buildData valid hproto]
  have hall : ∀ p ∈ buildData valid, p = (p.1, lastValue valid p.1) := by
    intro p hp
    have hk : p.1 ∈ (buildData valid).map Prod.fst := List.mem_map_of_mem _ hp
    obtain ⟨v, hv, hm⟩ := getProperty_of_mem (buildData valid) p.1 hk
    have hnd := nodup_keys_buildData valid
    have h1 := getProperty_buildData valid hproto p.1 hk
    have hmem : p ∈ (buildData valid).filter (fun q => q.1 == p.1) := by
      rw [List.mem_filter]
      exact ⟨hp, by simp⟩
    have hkp : p.1 ≠ "__proto__" := by
      intro e
      obtain ⟨f, hf, hfk, _⟩ := mem_buildData valid p.1 p.2 hp
      apply hproto
      rw [← e, ← hfk]
      exact List.mem_map_of_mem _ hf
    obtain ⟨f, hf, hfk, _⟩ := mem_buildData valid p.1 p.2 hp
    have hne : valid.filter (fun g => g.label == p.1) ≠ [] := by
      intro he
      have : f ∈ valid.filter (fun g => g.label == p.1) := by
        rw [List.mem_filter]
        exact ⟨hf, by simpa using hfk⟩
      rw [he] at this
      cases this
    cases hlast : (valid.filter (fun g => g.label == p.1)).getLast? with
    | none => exact absurd (List.getLast?_eq_none_iff.mp hlast) hne
    | some g =>
      rw [buildData_last_write_wins valid p.1 hkp g hlast, List.mem_singleton] at hmem
      have hl : lastValue valid p.1 = g.value := by
        unfold lastValue
        rw [hlast]
        rfl
      rw [hl]
      exact hmem
  rw [List.map_map]
  conv_lhs => rw [← List.map_id (buildData valid)]
  apply List.map_congr_left
  intro p hp
  exact hall p hp

/-- The text of `JSON.stringify(data, null, 2)` for the payload object is the pretty-printed
object of the mapping of the specification, its keys taken in the order of enumeration, when
no label is `__proto__`. -/
theorem jsonStringify2_buildData (valid : List Field)
    (hproto : "__proto__" ∉ valid.map Field.label) :
    jsonStringify2 (buildData valid) = specPrettyText (orderedPayload valid) := by
  have hkeys : ownPropertyKeys (buildData valid) =
      indexKeysFirst (firstOccurrences (valid.map Field.label)) := by
    rw [← keys_buildData valid hproto]
    rfl
  have hmembers : (ownPropertyKeys (buildData valid)).map (memberText (buildData valid)) =
      (orderedPayload valid).map
        (fun e => quoteJSONString e.1 ++ ": " ++ quoteJSONString e.2) := by
    unfold orderedPayload entriesFor
    rw [← hkeys, List.map_map]
    apply List.map_congr_left
    intro k hk
    have hg := getProperty_buildData valid hproto k ((mem_ownPropertyKeys _ k).mp hk)
    unfold memberText
    rw [hg]
    simp only [Function.comp, Option.getD_some, String.append_assoc]
    rfl
  rw [jsonStringify2_eq, hmembers]
  unfold specPrettyText
  by_cases ho : buildData valid = []
  · have hempty : orderedPayload valid = [] := by
      unfold orderedPayload entriesFor
      rw [← hkeys, ho]
      rfl
    rw [if_pos ho, if_pos hempty]
  · have hne : orderedPayload valid ≠ [] := by
      intro he
      have hlen : (orderedPayload valid).length = (buildData valid).length := by
        unfold orderedPayload entriesFor
        rw [← hkeys, List.length_map, (perm_ownPropertyKeys _).length_eq, List.length_map]
      rw [he] at hlen
      exact ho (List.length_eq_zero.mp hlen.symm)
    rw [if_neg ho, if_neg hne]

theorem indexKeysFirst_of_no_index (keys : List String)
    (h : ∀ k ∈ keys, isArrayIndex k = false) : indexKeysFirst keys = keys := by
  unfold indexKeysFirst
  have h1 : keys.filter isArrayIndex = [] := by
    rw [List.filter_eq_nil_iff]
    intro k hk
    rw [h k hk]
    simp
  have h2 : keys.filter (fun k => !isArrayIndex k) = keys := by
    rw [List.filter_eq_self]
    intro k hk
    rw [h k hk]
    rfl
  rw [h1, h2]
  rfl

/-- C5, as the code has it: when some field is valid and no valid field has the label
`__proto__`, `generateQRCode` calls the codec exactly once, with the options width 400,
margin 2, dark `#000000`, light `#FFFFFF`, and with the pretty-printed object, two spaces of
indentation, of the payload mapping of the specification (one entry per distinct label of the
valid fields, the value of its last occurrence, labels and values untrimmed), the keys that
are array indices coming first in ascending numeric order and the other keys following in the
order of the fields; when no valid label is an array index the keys are in the order of the
fields. Each label and value is written as a JSON string that reads back as the stored text,
and as it stands between double quotes when it has no control character, double quote or
backslash. For the single field `MAC Address` with the value `00:1A:2B:3C:4D:5E` the text is
the three lines of the specification. -/
theorem generateQRCode_codec_text (codec : Codec) (s : AppState)
    (h : ∃ f ∈ s.snapshot, trim f.label ≠ "" ∧ trim f.value ≠ "")
    (hproto : ∀ f ∈ s.snapshot, trim f.label ≠ "" ∧ trim f.value ≠ "" →
      f.label ≠ "__proto__") :
    (generateQRCode codec s).codecCalls =
      [(specPrettyText (orderedPayload (specValidFields s.snapshot)),
        { width := 400, margin := 2, color := { dark := "#000000", light := "#FFFFFF" } })] ∧
    ((∀ f ∈ s.snapshot, trim f.label ≠ "" ∧ trim f.value ≠ "" → isArrayIndex f.label = false) →
      (generateQRCode codec s).codecCalls =
        [(specPrettyText (specPayload (specValidFields s.snapshot)),
          { width := 400, margin := 2, color := { dark := "#000000", light := "#FFFFFF" } })]) ∧
    (∀ t : String, unquoteJSONString (quoteJSONString t) = some t) ∧
    (∀ t : String, (∀ c ∈ t.data, 32 ≤ c.toNat ∧ c.toNat ≠ 34 ∧ c.toNat ≠ 92) →
      quoteJSONString t = "\"" ++ t ++ "\"") ∧
    (s.snapshot = [⟨"MAC Address", "00:1A:2B:3C:4D:5E"⟩] →
      (generateQRCode codec s).codecCalls =
        [("\x7b\n  \"MAC Address\": \"00:1A:2B:3C:4D:5E\"\n\x7d",
          { width := 400, margin := 2, color := { dark := "#000000", light := "#FFFFFF" } })]) := by
  have hne : ¬ ((validFields s.snapshot).length = 0) := by
    intro hl
    obtain ⟨f, hf, hv⟩ := h
    have hnil := List.length_eq_zero.mp hl
    exact (validFields_eq_nil_iff s.snapshot).mp hnil f hf hv
  have hcalls : (generateQRCode codec s).codecCalls =
      [(jsonStringify2 (buildData (validFields s.snapshot)), qrOptions)] := by
    unfold generateQRCode
    simp only [hne, if_false]
    cases codec (jsonStringify2 (buildData (validFields s.snapshot))) qrOptions <;> rfl
  have hp : "__proto__" ∉ (validFields s.snapshot).map Field.label := by
    intro hm
    obtain ⟨f, hf, hfl⟩ := List.mem_map.mp hm
    have hv := (mem_validFields s.snapshot f).mp hf
    exact hproto f hv.1 hv.2 hfl
  have htext : (generateQRCode codec s).codecCalls =
      [(specPrettyText (orderedPayload (specValidFields s.snapshot)), qrOptions)] := by
    rw [hcalls, jsonStringify2_buildData _ hp, validFields_eq_specValidFields]
  refine ⟨htext, ?_, unquoteJSONString_quoteJSONString, quoteJSONString_of_plain, ?_⟩
  · intro hno
    rw [htext]
    have hkeys : indexKeysFirst (firstOccurrences ((specValidFields s.snapshot).map Field.label))
        = firstOccurrences ((specValidFields s.snapshot).map Field.label) := by
      apply indexKeysFirst_of_no_index
      intro k hk
      rw [mem_firstOccurrences] at hk
      obtain ⟨f, hf, rfl⟩ := List.mem_map.mp hk
      rw [← validFields_eq_specValidFields] at hf
      have hv := (mem_validFields s.snapshot f).mp hf
      exact hno f hv.1 hv.2
    unfold orderedPayload specPayload
    rw [hkeys]
    rfl
  · intro hs
    rw [hcalls, hs]
    decide

/-- C5 as amended, at the state whose only field is `MAC Address` with the value
`00:1A:2B:3C:4D:5E`: one call of the codec, with the three lines and the fixed options. -/
theorem generateQRCode_codec_text_witness :
    (generateQRCode (fun _ _ => Except.ok "data:image/png;base64,")
        { heap := fun _ => ⟨"MAC Address", "00:1A:2B:3C:4D:5E"⟩, next := 1, fields := [0],
          qrCodeUrl := "" }).codecCalls =
      [("\x7b\n  \"MAC Address\": \"00:1A:2B:3C:4D:5E\"\n\x7d",
        { width := 400, margin := 2, color := { dark := "#000000", light := "#FFFFFF" } })] :=
  (generateQRCode_codec_text (fun _ _ => Except.ok "data:image/png;base64,")
    { heap := fun _ => ⟨"MAC Address", "00:1A:2B:3C:4D:5E"⟩, next := 1, fields := [0],
      qrCodeUrl := "" }
    ⟨⟨"MAC Address", "00:1A:2B:3C:4D:5E"⟩, by decide, by decide⟩
    (by decide)).2.2.2.2 (by decide)

/-- C5 as the claim states it is false. With the valid fields `2`/`a`, `1`/`b` the codec is
given the text with the key `1` before the key `2`, not the pretty-printed object of the
payload mapping of the specification, whose keys are in the order of the fields. With the
single valid field `__proto__`/`1` the codec is given the empty object, and the mapping of
the specification has the entry `__proto__`/`1`. -/
theorem generateQRCode_codec_text_counterexample :
    (generateQRCode (fun _ _ => Except.ok "data:image/png;base64,")
        (stateOfFields [⟨"2", "a"⟩, ⟨"1", "b"⟩] "")).codecCalls =
      [("\x7b\n  \"1\": \"b\",\n  \"2\": \"a\"\n\x7d", qrOptions)] ∧
    specPrettyText (specPayload (specValidFields [⟨"2", "a"⟩, ⟨"1", "b"⟩])) =
      "\x7b\n  \"2\": \"a\",\n  \"1\": \"b\"\n\x7d" ∧
    (generateQRCode (fun _ _ => Except.ok "data:image/png;base64,")
        (stateOfFields [⟨"__proto__", "1"⟩] "")).codecCalls =
      [("\x7b\x7d", qrOptions)] ∧
    specPrettyText (specPayload (specValidFields [⟨"__proto__", "1"⟩])) =
      "\x7b\n  \"__proto__\": \"1\"\n\x7d" := by
  refine ⟨by decide, by decide, by decide, by decide⟩

end QRCodeGenerator
